import Mathlib

/-!
# Verification of the Mandelbrot renderer (`src/main.rs`)

Shallow embedding of the program's core: the escape-time evaluator, the
pixel-to-point coordinate mapper, the band renderer, the parallel
dispatcher's band partitioning (from `main`), and the CLI pair parsers.

Modelling conventions:
* Rust `f64` arithmetic is modelled by exact rational arithmetic (`ℚ`).
  All numeric literals appearing in the program and in the checked
  properties (`4.0`, the test corners `±1.0`, …) are exactly representable,
  and `f64` division by zero never occurs under the stated preconditions.
* Rust machine integers (`u32`, `usize`) are modelled by `ℕ`; where 32-bit
  overflow is the point of a property, the wrap is written explicitly as
  `% 2 ^ 32`.
* The mutable pixel buffer is modelled functionally: `render` returns the
  row-major list of bytes it writes (it writes every cell of its slice
  exactly once, which is proved separately from its write-index trace
  `writes`), and the dispatcher's result is the concatenation of the bands'
  outputs, matching the disjoint consecutive sub-slices of the real buffer.
-/

namespace Mandelbrot

/-- `num::Complex<f64>`, with `f64` modelled as `ℚ`. -/
structure Complex where
  re : ℚ
  im : ℚ
deriving DecidableEq

instance : Add Complex := ⟨fun a b => ⟨a.re + b.re, a.im + b.im⟩⟩

/-- Complex multiplication, as performed by the `num` crate. -/
instance : Mul Complex := ⟨fun a b => ⟨a.re * b.re - a.im * b.im, a.re * b.im + a.im * b.re⟩⟩

theorem Complex.add_def (a b : Complex) : a + b = ⟨a.re + b.re, a.im + b.im⟩ := rfl

theorem Complex.mul_def (a b : Complex) :
    a * b = ⟨a.re * b.re - a.im * b.im, a.re * b.im + a.im * b.re⟩ := rfl

/-- `Complex::norm_sqr`: squared magnitude. -/
def norm_sqr (z : Complex) : ℚ := z.re * z.re + z.im * z.im

/-- `pixel_to_point` from `src/main.rs`: linear interpolation from pixel
coordinates `(column, row)` to a point of the viewport. -/
def pixel_to_point (bounds : ℕ × ℕ) (pixel : ℕ × ℕ)
    (upper_left lower_right : Complex) : Complex :=
  let width := lower_right.re - upper_left.re
  let height := upper_left.im - lower_right.im
  { re := upper_left.re + (pixel.1 : ℚ) * width / (bounds.1 : ℚ)
    im := upper_left.im - (pixel.2 : ℚ) * height / (bounds.2 : ℚ) }

/-- The loop body of `escape_time`: `z` is the current iterate, `i` the
current loop index, and the third argument the number of loop iterations
still to run (`limit - i`). The escape test is applied to `z` *before* the
squaring-and-add update, exactly as in the source. -/
def escapeAux (c : Complex) : Complex → ℕ → ℕ → Option ℕ
  | _, _, 0 => none
  | z, i, fuel + 1 => if 4 < norm_sqr z then some i else escapeAux c (z * z + c) (i + 1) fuel

/-- `escape_time` from `src/main.rs`. -/
def escape_time (c : Complex) (limit : ℕ) : Option ℕ :=
  escapeAux c ⟨0, 0⟩ 0 limit

/-- The orbit `z₀ = 0`, `z_{n+1} = z_n² + c` traversed by `escape_time`. -/
def orbit (c : Complex) : ℕ → Complex
  | 0 => ⟨0, 0⟩
  | n + 1 => orbit c n * orbit c n + c

/-- The byte `render` stores for one pixel: `0` when the point never
escapes, `255 - i` when `escape_time` reports escape at iteration `i`
(since `i < 255`, the `u8` subtraction does not wrap). -/
def pixelByte (bounds : ℕ × ℕ) (upper_left lower_right : Complex)
    (column row : ℕ) : ℕ :=
  match escape_time (pixel_to_point bounds (column, row) upper_left lower_right) 255 with
  | none => 0
  | some x => 255 - x

/-- `render` from `src/main.rs`, modelled functionally: the row-major list
of bytes written into the band's slice. -/
def render (bounds : ℕ × ℕ) (upper_left lower_right : Complex) : List ℕ :=
  (List.range bounds.2).flatMap fun row =>
    (List.range bounds.1).map fun column =>
      pixelByte bounds upper_left lower_right column row

/-- `rows_per_band` as computed in `main`: integer division then plus one. -/
def rows_per_band (height threads : ℕ) : ℕ := height / threads + 1

/-- Length of the `i`-th chunk produced by `chunks_mut(csize)` on a slice
of length `len`. -/
def chunkLen (len csize i : ℕ) : ℕ := min csize (len - csize * i)

/-- Number of chunks produced by `chunks_mut(csize)` on a slice of length
`len`: `⌈len / csize⌉`. -/
def numChunks (len csize : ℕ) : ℕ := (len + csize - 1) / csize

/-- The band-splitting loop of `main`: the pixel buffer (of length
`width * height`) is split into chunks of `rows_per_band * width` bytes;
chunk `i` starts at row `top = rows_per_band * i`, its height is its length
divided by `width`, and it is rendered with the band-local bounds and the
band-local viewport obtained from two `pixel_to_point` calls against the
global bounds and viewport. The result is the final content of the buffer:
the concatenation of the bands' outputs. -/
def dispatch (width height threads : ℕ) (upper_left lower_right : Complex) : List ℕ :=
  let rpb := rows_per_band height threads
  let csize := rpb * width
  (List.range (numChunks (width * height) csize)).flatMap fun i =>
    let top := rpb * i
    let bheight := chunkLen (width * height) csize i / width
    render (width, bheight)
      (pixel_to_point (width, height) (0, top) upper_left lower_right)
      (pixel_to_point (width, height) (width, top + bheight) upper_left lower_right)

/-- Number of bands dispatched (one worker task is spawned per band). -/
def numBands (width height threads : ℕ) : ℕ :=
  numChunks (width * height) (rows_per_band height threads * width)

/-- The buffer index `render` writes for pixel `(column, row)`:
`row * width + column` computed in 32-bit unsigned arithmetic. -/
def writeIndex (width row column : ℕ) : ℕ := (row * width + column) % 2 ^ 32

/-- The sequence of buffer indices written by one `render` call, in program
order. -/
def writes (width height : ℕ) : List ℕ :=
  (List.range height).flatMap fun row =>
    (List.range width).map fun column => writeIndex width row column

/-- `str::find`: byte index of the first occurrence of the separator
(ASCII in all uses, so char index and byte index agree). -/
def strFind (s : List Char) (seperator : Char) : Option ℕ :=
  s.findIdx? (· = seperator)

/-- `parse_pair` from `src/main.rs`, generic over the element parse
function (`T::from_str`). -/
def parse_pair (fromStr : List Char → Option α) (s : List Char)
    (seperator : Char) : Option (α × α) :=
  match strFind s seperator with
  | none => none
  | some index =>
    match fromStr (s.take index), fromStr (s.drop (index + 1)) with
    | some a, some b => some (a, b)
    | _, _ => none

/-- Value of a decimal digit character. -/
def digitVal (c : Char) : Option ℕ :=
  if c.isDigit then some (c.toNat - '0'.toNat) else none

/-- Value of a non-empty all-digit string; `none` otherwise. -/
def natFromDigits (s : List Char) : Option ℕ :=
  if s.isEmpty then none
  else
    s.foldl
      (fun acc c =>
        match acc, digitVal c with
        | some n, some d => some (n * 10 + d)
        | _, _ => none)
      (some 0)

/-- Model of Rust's `u32::from_str` (standard library, external to this
repository): an optional `+` sign followed by a non-empty digit string;
values not fitting in 32 bits are a parse error. -/
def u32_from_str (s : List Char) : Option ℕ :=
  let t := match s with
    | '+' :: rest => rest
    | _ => s
  match natFromDigits t with
  | some n => if n < 2 ^ 32 then some n else none
  | none => none

/-- Model of Rust's `f64::from_str` (standard library, external to this
repository), restricted to plain decimal literals
`[sign] digits [. digits]` — the only forms this program's properties
exercise; the value is modelled exactly as a rational. -/
def f64_from_str (s : List Char) : Option ℚ :=
  let sign : ℚ := if s.head? = some '-' then -1 else 1
  let t := if s.head? = some '-' ∨ s.head? = some '+' then s.tail else s
  let intPart := t.takeWhile (· ≠ '.')
  match t.dropWhile (· ≠ '.') with
  | [] => (natFromDigits intPart).map fun n => sign * (n : ℚ)
  | c :: frac =>
    if c = '.' then
      match natFromDigits intPart, natFromDigits frac with
      | some n, some m => some (sign * ((n : ℚ) + (m : ℚ) / 10 ^ frac.length))
      | _, _ => none
    else none

/-- `parse_complex` from `src/main.rs`. -/
def parse_complex (s : List Char) : Option Complex :=
  match parse_pair f64_from_str s ',' with
  | some (re, im) => some ⟨re, im⟩
  | none => none

/-! ## Escape-time lemmas -/

theorem orbit_succ (c : Complex) (n : ℕ) :
    orbit c (n + 1) = orbit c n * orbit c n + c := rfl

theorem escapeAux_orbit_none (c : Complex) :
    ∀ (fuel k : ℕ), (escapeAux c (orbit c k) k fuel = none ↔
      ∀ j, k ≤ j → j < k + fuel → norm_sqr (orbit c j) ≤ 4) := by
  intro fuel
  induction fuel with
  | zero => intro k; simp [escapeAux]; intro j h1 h2; omega
  | succ fuel ih =>
    intro k
    rw [escapeAux]
    by_cases h4 : 4 < norm_sqr (orbit c k)
    · simp only [if_pos h4]
      constructor
      · intro h; exact absurd h (by simp)
      · intro h
        exact absurd (h k le_rfl (by omega)) (by exact not_le.mpr h4)
    · simp only [if_neg h4, ← orbit_succ]
      rw [ih (k + 1)]
      constructor
      · intro h j hkj hjf
        rcases Nat.eq_or_lt_of_le hkj with rfl | hlt
        · exact le_of_not_lt h4
        · exact h j hlt (by omega)
      · intro h j hkj hjf
        exact h j (by omega) (by omega)

theorem escapeAux_orbit_some (c : Complex) :
    ∀ (fuel k m : ℕ), (escapeAux c (orbit c k) k fuel = some m ↔
      k ≤ m ∧ m < k + fuel ∧ 4 < norm_sqr (orbit c m) ∧
        ∀ j, k ≤ j → j < m → norm_sqr (orbit c j) ≤ 4) := by
  intro fuel
  induction fuel with
  | zero => intro k m; simp [escapeAux]; intro h1 h2; omega
  | succ fuel ih =>
    intro k m
    rw [escapeAux]
    by_cases h4 : 4 < norm_sqr (orbit c k)
    · simp only [if_pos h4, Option.some.injEq]
      constructor
      · rintro rfl
        exact ⟨le_rfl, by omega, h4, fun j h1 h2 => absurd h1 (by omega)⟩
      · rintro ⟨h1, h2, h3, h5⟩
        by_contra hne
        have hk : k < m := lt_of_le_of_ne h1 hne
        exact absurd (h5 k le_rfl hk) (not_le.mpr h4)
    · simp only [if_neg h4, ← orbit_succ]
      rw [ih (k + 1) m]
      constructor
      · rintro ⟨h1, h2, h3, h5⟩
        refine ⟨by omega, by omega, h3, fun j hkj hjm => ?_⟩
        rcases Nat.eq_or_lt_of_le hkj with rfl | hlt
        · exact le_of_not_lt h4
        · exact h5 j hlt hjm
      · rintro ⟨h1, h2, h3, h5⟩
        have hkm : k ≠ m := by
          rintro rfl
          exact h4 h3
        refine ⟨by omega, by omega, h3, fun j h1j h2j => h5 j (by omega) h2j⟩

theorem escape_time_none_iff (c : Complex) (L : ℕ) :
    escape_time c L = none ↔ ∀ j < L, norm_sqr (orbit c j) ≤ 4 := by
  have h := escapeAux_orbit_none c L 0
  simp only [orbit] at h
  rw [escape_time, h]
  constructor
  · intro h j hj; exact h j (Nat.zero_le j) (by omega)
  · intro h j _ hj; exact h j (by omega)

theorem escape_time_some_iff (c : Complex) (L m : ℕ) :
    escape_time c L = some m ↔
      m < L ∧ 4 < norm_sqr (orbit c m) ∧ ∀ j < m, norm_sqr (orbit c j) ≤ 4 := by
  have h := escapeAux_orbit_some c L 0 m
  simp only [orbit] at h
  rw [escape_time, h]
  constructor
  · rintro ⟨_, h2, h3, h5⟩
    exact ⟨by omega, h3, fun j hj => h5 j (Nat.zero_le j) hj⟩
  · rintro ⟨h2, h3, h5⟩
    exact ⟨Nat.zero_le m, by omega, h3, fun j _ hj => h5 j hj⟩

theorem norm_sqr_orbit_zero (c : Complex) : norm_sqr (orbit c 0) = 0 := by
  simp [orbit, norm_sqr]

theorem escape_time_ne_some_zero (c : Complex) (L : ℕ) : escape_time c L ≠ some 0 := by
  intro h
  rcases (escape_time_some_iff c L 0).mp h with ⟨-, h4, -⟩
  rw [norm_sqr_orbit_zero] at h4
  norm_num at h4

theorem orbit_of_zero (n : ℕ) : orbit ⟨0, 0⟩ n = ⟨0, 0⟩ := by
  induction n with
  | zero => rfl
  | succ n ih => rw [orbit_succ, ih]; simp [Complex.mul_def, Complex.add_def]

theorem escape_time_origin (L : ℕ) : escape_time ⟨0, 0⟩ L = none := by
  rw [escape_time_none_iff]
  intro j _
  rw [orbit_of_zero, show norm_sqr ⟨0, 0⟩ = 0 by simp [norm_sqr]]
  norm_num

theorem escape_time_three (L : ℕ) (hL : 2 ≤ L) : escape_time ⟨3, 0⟩ L = some 1 := by
  rw [escape_time_some_iff]
  have h1 : orbit ⟨3, 0⟩ 1 = ⟨3, 0⟩ := by
    rw [orbit_succ]
    simp [orbit, Complex.mul_def, Complex.add_def]
  refine ⟨by omega, ?_, ?_⟩
  · rw [h1]; simp [norm_sqr]; norm_num
  · intro j hj
    interval_cases j
    rw [norm_sqr_orbit_zero]
    norm_num

/-! ## Coordinate-mapper lemmas -/

theorem pixel_to_point_def (bounds pixel : ℕ × ℕ) (upper_left lower_right : Complex) :
    pixel_to_point bounds pixel upper_left lower_right =
      ⟨upper_left.re + (pixel.1 : ℚ) * (lower_right.re - upper_left.re) / (bounds.1 : ℚ),
       upper_left.im - (pixel.2 : ℚ) * (upper_left.im - lower_right.im) / (bounds.2 : ℚ)⟩ := rfl

theorem pixel_to_point_origin (bounds : ℕ × ℕ) (upper_left lower_right : Complex) :
    pixel_to_point bounds (0, 0) upper_left lower_right = upper_left := by
  obtain ⟨a, b⟩ := upper_left
  simp [pixel_to_point_def]

theorem pixel_to_point_corner (w h : ℕ) (upper_left lower_right : Complex)
    (hw : 0 < w) (hh : 0 < h) :
    pixel_to_point (w, h) (w, h) upper_left lower_right = lower_right := by
  obtain ⟨a, b⟩ := upper_left
  obtain ⟨d, e⟩ := lower_right
  have hw0 : (w : ℚ) ≠ 0 := Nat.cast_ne_zero.mpr hw.ne'
  have hh0 : (h : ℚ) ≠ 0 := Nat.cast_ne_zero.mpr hh.ne'
  simp only [pixel_to_point_def, Complex.mk.injEq]
  constructor
  · field_simp
  · field_simp

/-- The key algebraic fact behind the parallel decomposition: mapping a
pixel through a band's local bounds and local viewport (both derived from
the global ones, the viewport by two `pixel_to_point` calls) gives exactly
the same point as mapping the corresponding global pixel directly. -/
theorem band_pixel_to_point (w h top bh : ℕ) (upper_left lower_right : Complex)
    (hw : 0 < w) (hh : 0 < h) (hbh : 0 < bh) (c r : ℕ) :
    pixel_to_point (w, bh) (c, r)
      (pixel_to_point (w, h) (0, top) upper_left lower_right)
      (pixel_to_point (w, h) (w, top + bh) upper_left lower_right) =
    pixel_to_point (w, h) (c, top + r) upper_left lower_right := by
  obtain ⟨a, b⟩ := upper_left
  obtain ⟨d, e⟩ := lower_right
  have hw0 : (w : ℚ) ≠ 0 := Nat.cast_ne_zero.mpr hw.ne'
  have hh0 : (h : ℚ) ≠ 0 := Nat.cast_ne_zero.mpr hh.ne'
  have hbh0 : (bh : ℚ) ≠ 0 := Nat.cast_ne_zero.mpr hbh.ne'
  simp only [pixel_to_point_def, Complex.mk.injEq]
  constructor
  · push_cast
    field_simp
  · push_cast
    field_simp
    ring

/-! ## Band-partition lemmas -/

theorem range_add_flatMap (a b : ℕ) (f : ℕ → List ℕ) :
    (List.range (a + b)).flatMap f =
      (List.range a).flatMap f ++ (List.range b).flatMap (fun r => f (a + r)) := by
  rw [List.range_add, List.flatMap_append]
  simp [List.flatMap_map]

theorem numChunks_zero (csize : ℕ) (hc : 0 < csize) : numChunks 0 csize = 0 := by
  unfold numChunks
  exact Nat.div_eq_of_lt (by omega)

theorem numChunks_succ (h rpb : ℕ) (h0 : 0 < h) (hr : 0 < rpb) :
    numChunks h rpb = numChunks (h - rpb) rpb + 1 := by
  rcases le_total h rpb with hle | hle
  · have e : h - rpb = 0 := by omega
    rw [e, numChunks_zero _ hr]
    unfold numChunks
    exact Nat.div_eq_of_lt_le (by omega) (by omega)
  · have e : h + rpb - 1 = (h - rpb + rpb - 1) + rpb := by omega
    unfold numChunks
    rw [e, Nat.add_div_right _ hr]

theorem flatMap_chunks (rpb : ℕ) (hr : 0 < rpb) :
    ∀ (h : ℕ) (f : ℕ → List ℕ),
      (List.range (numChunks h rpb)).flatMap
          (fun i => (List.range (min rpb (h - rpb * i))).flatMap fun r => f (rpb * i + r)) =
        (List.range h).flatMap f := by
  intro h
  induction h using Nat.strong_induction_on with
  | _ h IH =>
    intro f
    rcases Nat.eq_zero_or_pos h with rfl | h0
    · rw [numChunks_zero _ hr]
      simp
    · rw [numChunks_succ h rpb h0 hr, List.range_succ_eq_map, List.flatMap_cons]
      have harg : ∀ i r : ℕ, rpb * (i + 1) + r = rpb + (rpb * i + r) := fun i r => by ring
      have hsub : ∀ i : ℕ, h - rpb * (i + 1) = (h - rpb) - rpb * i := fun i => by
        rw [Nat.mul_succ]; omega
      have hshift :
          ((List.range (numChunks (h - rpb) rpb)).map Nat.succ).flatMap
              (fun i => (List.range (min rpb (h - rpb * i))).flatMap fun r => f (rpb * i + r)) =
            (List.range (h - rpb)).flatMap (fun x => f (rpb + x)) := by
        rw [List.flatMap_map]
        have : ∀ i : ℕ,
            (List.range (min rpb (h - rpb * (i + 1)))).flatMap (fun r => f (rpb * (i + 1) + r)) =
              (List.range (min rpb ((h - rpb) - rpb * i))).flatMap
                (fun r => (fun x => f (rpb + x)) (rpb * i + r)) := by
          intro i
          simp only [harg, hsub]
        calc (List.range (numChunks (h - rpb) rpb)).flatMap
              (fun i => (List.range (min rpb (h - rpb * (i + 1)))).flatMap
                fun r => f (rpb * (i + 1) + r))
            = (List.range (numChunks (h - rpb) rpb)).flatMap
              (fun i => (List.range (min rpb ((h - rpb) - rpb * i))).flatMap
                fun r => (fun x => f (rpb + x)) (rpb * i + r)) := by
              exact List.flatMap_congr (fun i _ => this i)
          _ = (List.range (h - rpb)).flatMap (fun x => f (rpb + x)) :=
              IH (h - rpb) (by omega) (fun x => f (rpb + x))
      rw [hshift]
      have hchunk0 : (List.range (min rpb (h - rpb * 0))).flatMap (fun r => f (rpb * 0 + r)) =
          (List.range (min rpb h)).flatMap f := by
        simp
      rw [hchunk0]
      rcases le_total rpb h with hle | hle
      · have e : min rpb h + (h - rpb) = h := by omega
        rw [min_eq_left hle] at e ⊢
        conv_rhs => rw [← e, range_add_flatMap]
      · have e : h - rpb = 0 := by omega
        rw [min_eq_right hle, e]
        simp

theorem flatMap_single (l : List ℕ) (g : ℕ → ℕ) :
    l.flatMap (fun x => [g x]) = l.map g := by
  induction l with
  | nil => rfl
  | cons a l ih => simp [List.flatMap_cons, ih]

theorem chunks_cover (rpb h : ℕ) (hr : 0 < rpb) :
    (List.range (numChunks h rpb)).flatMap
        (fun i => (List.range (min rpb (h - rpb * i))).map fun r => rpb * i + r) =
      List.range h := by
  have h1 := flatMap_chunks rpb hr h (fun r => [r])
  have h2 : ∀ i : ℕ,
      (List.range (min rpb (h - rpb * i))).flatMap (fun r => [rpb * i + r]) =
        (List.range (min rpb (h - rpb * i))).map fun r => rpb * i + r :=
    fun i => flatMap_single _ _
  simp only [h2] at h1
  rw [h1, flatMap_single, List.map_id']

theorem min_chunk_sum (rpb h : ℕ) (hr : 0 < rpb) :
    ((List.range (numChunks h rpb)).map fun i => min rpb (h - rpb * i)).sum = h := by
  have := congrArg List.length (chunks_cover rpb h hr)
  simpa [List.length_flatMap, Function.comp_def] using this

theorem chunkLen_eq (w h rpb i : ℕ) :
    chunkLen (w * h) (rpb * w) i = w * min rpb (h - rpb * i) := by
  unfold chunkLen
  have e1 : rpb * w * i = w * (rpb * i) := by ring
  have e : w * h - rpb * w * i = w * (h - rpb * i) := by rw [e1, Nat.mul_sub]
  rw [e, show rpb * w = w * rpb from mul_comm rpb w]
  rcases le_total rpb (h - rpb * i) with hc | hc
  · rw [min_eq_left hc, min_eq_left (mul_le_mul_left' hc w)]
  · rw [min_eq_right hc, min_eq_right (mul_le_mul_left' hc w)]

theorem chunk_height (w h rpb i : ℕ) (hw : 0 < w) :
    chunkLen (w * h) (rpb * w) i / w = min rpb (h - rpb * i) := by
  rw [chunkLen_eq, Nat.mul_div_cancel_left _ hw]

theorem numChunks_mul (w h rpb : ℕ) (hw : 0 < w) (hr : 0 < rpb) :
    numChunks (w * h) (rpb * w) = numChunks h rpb := by
  rcases Nat.eq_zero_or_pos h with rfl | h0
  · rw [Nat.mul_zero, numChunks_zero _ (Nat.mul_pos hr hw), numChunks_zero _ hr]
  · have hwh : 0 < w * h := Nat.mul_pos hw h0
    have key : ∀ x c : ℕ, 0 < x → 0 < c → (x + c - 1) / c = (x - 1) / c + 1 := by
      intro x c hx hc
      have e : x + c - 1 = (x - 1) + c := by omega
      rw [e, Nat.add_div_right _ hc]
    unfold numChunks
    rw [key _ _ hwh (Nat.mul_pos hr hw), key _ _ h0 hr]
    congr 1
    have hmod := Nat.div_add_mod (h - 1) rpb
    have hlt : (h - 1) % rpb < rpb := Nat.mod_lt _ hr
    set q := (h - 1) / rpb with hq
    apply Nat.div_eq_of_lt_le
    · have h1 : rpb * q ≤ h - 1 := by omega
      calc q * (rpb * w) = w * (rpb * q) := by ring
        _ ≤ w * (h - 1) := mul_le_mul_left' h1 w
        _ = w * h - w := by rw [Nat.mul_sub, Nat.mul_one]
        _ ≤ w * h - 1 := by omega
    · have h2 : h ≤ rpb * (q + 1) := by
        rw [Nat.mul_succ]
        omega
      calc w * h - 1 < w * h := by omega
        _ ≤ w * (rpb * (q + 1)) := mul_le_mul_left' h2 w
        _ = (q + 1) * (rpb * w) := by ring

theorem rpb_mul_lt (h rpb i : ℕ) (hr : 0 < rpb) (hi : i < numChunks h rpb) :
    rpb * i < h := by
  unfold numChunks at hi
  have h1 : (i + 1) * rpb ≤ h + rpb - 1 := (Nat.le_div_iff_mul_le hr).mp hi
  have h2 : (i + 1) * rpb = rpb * i + rpb := by ring
  omega

/-! ## Renderer lemmas -/

theorem render_eq_flatMap (w h : ℕ) (upper_left lower_right : Complex) :
    render (w, h) upper_left lower_right =
      (List.range h).flatMap fun row =>
        (List.range w).map fun col => pixelByte (w, h) upper_left lower_right col row := rfl

theorem render_band_eq (w h top bh : ℕ) (upper_left lower_right : Complex)
    (hw : 0 < w) (hh : 0 < h) (hbh : 0 < bh) :
    render (w, bh) (pixel_to_point (w, h) (0, top) upper_left lower_right)
        (pixel_to_point (w, h) (w, top + bh) upper_left lower_right) =
      (List.range bh).flatMap fun r =>
        (List.range w).map fun col => pixelByte (w, h) upper_left lower_right col (top + r) := by
  have key : ∀ col r : ℕ,
      pixelByte (w, bh) (pixel_to_point (w, h) (0, top) upper_left lower_right)
          (pixel_to_point (w, h) (w, top + bh) upper_left lower_right) col r =
        pixelByte (w, h) upper_left lower_right col (top + r) := by
    intro col r
    unfold pixelByte
    rw [band_pixel_to_point w h top bh upper_left lower_right hw hh hbh col r]
  simp only [render_eq_flatMap, key]

theorem flatMap_const_length (f : ℕ → List ℕ) (w h : ℕ) (hf : ∀ r, (f r).length = w) :
    ((List.range h).flatMap f).length = h * w := by
  rw [List.length_flatMap]
  simp [Function.comp_def, hf, List.map_const', List.sum_replicate, smul_eq_mul]

theorem flatMap_const_length_get (f : ℕ → List ℕ) (w : ℕ) (hf : ∀ r, (f r).length = w) :
    ∀ (h row col : ℕ), row < h → col < w →
      ((List.range h).flatMap f)[row * w + col]? = (f row)[col]? := by
  intro h
  induction h with
  | zero => intro row col h1 _; exact absurd h1 (Nat.not_lt_zero row)
  | succ h ih =>
    intro row col h1 h2
    rw [List.range_succ, List.flatMap_append, List.flatMap_singleton]
    have hlen : ((List.range h).flatMap f).length = h * w := flatMap_const_length f w h hf
    rcases Nat.lt_or_ge row h with hcase | hcase
    · have hidx : row * w + col < h * w := by
        have hstep : row * w + col < (row + 1) * w := by
          rw [Nat.succ_mul]; omega
        have h3 : (row + 1) * w ≤ h * w := Nat.mul_le_mul_right w hcase
        omega
      have hcond : row * w + col < ((List.range h).flatMap f).length := by
        rw [hlen]; exact hidx
      rw [List.getElem?_append, if_pos hcond]
      exact ih row col hcase h2
    · have hrow : row = h := by omega
      subst hrow
      have hcond : ¬ row * w + col < ((List.range row).flatMap f).length := by
        rw [hlen]; omega
      rw [List.getElem?_append, if_neg hcond, hlen]
      congr 1
      omega

theorem render_length (w h : ℕ) (upper_left lower_right : Complex) :
    (render (w, h) upper_left lower_right).length = w * h := by
  rw [render_eq_flatMap, flatMap_const_length _ w h (fun r => by simp), Nat.mul_comm]

theorem render_get (w h row col : ℕ) (upper_left lower_right : Complex)
    (hrow : row < h) (hcol : col < w) :
    (render (w, h) upper_left lower_right)[row * w + col]? =
      some (pixelByte (w, h) upper_left lower_right col row) := by
  have key := flatMap_const_length_get
    (fun r => (List.range w).map fun c => pixelByte (w, h) upper_left lower_right c r) w
    (fun r => by simp) h row col hrow hcol
  rw [render_eq_flatMap, key]
  simp [List.getElem?_map, List.getElem?_range hcol]

/-! ## Write-trace lemmas -/

theorem writes_def (w h : ℕ) :
    writes w h = (List.range h).flatMap
      (fun row => (List.range w).map fun column => writeIndex w row column) := rfl

theorem pixel_index_lt (w h row col : ℕ) (hrow : row < h) (hcol : col < w) :
    row * w + col < w * h := by
  have h1 : row * w + col < (row + 1) * w := by rw [Nat.succ_mul]; omega
  have h2 : (row + 1) * w ≤ h * w := Nat.mul_le_mul_right w hrow
  have h3 : h * w = w * h := Nat.mul_comm h w
  omega

theorem writes_eq_range (w h : ℕ) (hwh : w * h ≤ 2 ^ 32) :
    writes w h = List.range (w * h) := by
  induction h with
  | zero => simp [writes_def]
  | succ h ih =>
    have hle : w * h ≤ 2 ^ 32 := by
      have : w * h ≤ w * (h + 1) := Nat.mul_le_mul_left w (Nat.le_succ h)
      omega
    rw [writes_def, List.range_succ, List.flatMap_append, List.flatMap_singleton,
      ← writes_def, ih hle]
    have hmap : (List.range w).map (fun column => writeIndex w h column) =
        (List.range w).map (fun column => w * h + column) := by
      apply List.map_congr_left
      intro c hc
      rw [List.mem_range] at hc
      unfold writeIndex
      have e1 : h * w = w * h := Nat.mul_comm h w
      have e2 : w * (h + 1) = w * h + w := by ring
      rw [Nat.mod_eq_of_lt (by omega)]
      omega
    rw [hmap, show w * (h + 1) = w * h + w from by ring, List.range_add]

/-! ## Parsing lemmas -/

theorem parse_pair_no_sep {α : Type} (fromStr : List Char → Option α) (s : List Char)
    (seperator : Char) (h : strFind s seperator = none) :
    parse_pair fromStr s seperator = none := by
  unfold parse_pair
  rw [h]

theorem parse_pair_side_fail {α : Type} (fromStr : List Char → Option α) (s : List Char)
    (seperator : Char) (i : ℕ) (h : strFind s seperator = some i)
    (hfail : fromStr (s.take i) = none ∨ fromStr (s.drop (i + 1)) = none) :
    parse_pair fromStr s seperator = none := by
  unfold parse_pair
  rw [h]
  show (match fromStr (s.take i), fromStr (s.drop (i + 1)) with
    | some a, some b => some (a, b)
    | _, _ => none) = none
  rcases hfail with hf | hf
  · rw [hf]
  · rw [hf]
    cases fromStr (s.take i) <;> rfl

theorem f64_from_str_neg120 : f64_from_str "-1.20".toList = some (-1.20 : ℚ) := by
  simp +decide [f64_from_str, natFromDigits, digitVal]
  norm_num

theorem f64_from_str_035 : f64_from_str "0.35".toList = some (0.35 : ℚ) := by
  simp +decide [f64_from_str, natFromDigits, digitVal]
  norm_num

theorem sum_map_mul (w : ℕ) (f : ℕ → ℕ) (l : List ℕ) :
    (l.map fun i => w * f i).sum = w * (l.map f).sum := by
  induction l with
  | nil => simp
  | cons a l ih => simp [ih, Nat.mul_add]

/-! ## Claim theorems -/

/-- C1: for width > 0, height > 0 and any worker count T > 0 (in particular
every T > 1), the dispatcher's parallel result — splitting the buffer into
chunks of `rows_per_band * width` bytes, deriving each band's local
viewport via `pixel_to_point` against the global bounds, and rendering
each band with its band-local bounds and viewport — is byte-for-byte the
same list as one single `render` call covering all rows with the global
bounds and viewport. -/
theorem dispatch_eq_render (w h T : ℕ) (upper_left lower_right : Complex)
    (hw : 0 < w) (hh : 0 < h) (hT : 0 < T) :
    dispatch w h T upper_left lower_right = render (w, h) upper_left lower_right := by
  have hr : 0 < rows_per_band h T := Nat.succ_pos _
  rw [show dispatch w h T upper_left lower_right =
      (List.range (numChunks (w * h) (rows_per_band h T * w))).flatMap (fun i =>
        render (w, chunkLen (w * h) (rows_per_band h T * w) i / w)
          (pixel_to_point (w, h) (0, rows_per_band h T * i) upper_left lower_right)
          (pixel_to_point (w, h)
            (w, rows_per_band h T * i + chunkLen (w * h) (rows_per_band h T * w) i / w)
            upper_left lower_right)) from rfl]
  set rpb := rows_per_band h T with hrpb
  rw [numChunks_mul w h rpb hw hr]
  have hcongr : ∀ i ∈ List.range (numChunks h rpb),
      render (w, chunkLen (w * h) (rpb * w) i / w)
          (pixel_to_point (w, h) (0, rpb * i) upper_left lower_right)
          (pixel_to_point (w, h) (w, rpb * i + chunkLen (w * h) (rpb * w) i / w)
            upper_left lower_right) =
        (List.range (min rpb (h - rpb * i))).flatMap fun r =>
          (List.range w).map fun col =>
            pixelByte (w, h) upper_left lower_right col (rpb * i + r) := by
    intro i hi
    rw [List.mem_range] at hi
    have hbh : 0 < min rpb (h - rpb * i) := by
      have := rpb_mul_lt h rpb i hr hi
      omega
    rw [chunk_height w h rpb i hw]
    exact render_band_eq w h (rpb * i) (min rpb (h - rpb * i)) upper_left lower_right hw hh hbh
  rw [List.flatMap_congr hcongr, render_eq_flatMap]
  exact flatMap_chunks rpb hr h
    (fun row => (List.range w).map fun col => pixelByte (w, h) upper_left lower_right col row)

/-- C1 witness. -/
theorem dispatch_eq_render_witness :
    (0 : ℕ) < 2 ∧ dispatch 2 3 5 ⟨0, 1⟩ ⟨1, 0⟩ = render (2, 3) ⟨0, 1⟩ ⟨1, 0⟩ :=
  ⟨by decide, dispatch_eq_render 2 3 5 ⟨0, 1⟩ ⟨1, 0⟩ (by decide) (by decide) (by decide)⟩

/-- C2: for every point `c` and limit `L > 0`, `escape_time c L` is
`some i` exactly for the smallest `i < L` with `|z_i|² > 4` (the test
running before each squaring-and-add step), `none` when no such `i < L`
exists; `some 0` is never returned, the origin never escapes, and `c = 3`
escapes at iteration 1 for every `L ≥ 2`. -/
theorem escape_time_correct (c : Complex) (L : ℕ) (hL : 0 < L) :
    (escape_time c L = none ↔ ∀ i < L, norm_sqr (orbit c i) ≤ 4) ∧
    (∀ i, escape_time c L = some i ↔
      i < L ∧ 4 < norm_sqr (orbit c i) ∧ ∀ j < i, norm_sqr (orbit c j) ≤ 4) ∧
    escape_time c L ≠ some 0 ∧
    escape_time ⟨0, 0⟩ L = none ∧
    (2 ≤ L → escape_time ⟨3, 0⟩ L = some 1) :=
  ⟨escape_time_none_iff c L, fun i => escape_time_some_iff c L i,
   escape_time_ne_some_zero c L, escape_time_origin L, fun h2 => escape_time_three L h2⟩

/-- C2 witness. -/
theorem escape_time_correct_witness :
    (0 : ℕ) < 2 ∧ escape_time ⟨3, 0⟩ 2 = some 1 :=
  ⟨by decide, (escape_time_correct ⟨3, 0⟩ 2 (by decide)).2.2.2.2 (by decide)⟩

/-- C3: `render` fills its slice in row-major order (position
`row * width + column`, with the slice's total length `width * height`);
the byte for each pixel comes from `pixel_to_point` with the band-local
bounds and viewport and `escape_time` with limit 255: byte 0 when the
result is `none`, byte `255 - i` when it is `some i`. -/
theorem render_rowmajor (w h row col : ℕ) (upper_left lower_right : Complex)
    (hrow : row < h) (hcol : col < w) :
    (render (w, h) upper_left lower_right)[row * w + col]? =
      some (pixelByte (w, h) upper_left lower_right col row) ∧
    (escape_time (pixel_to_point (w, h) (col, row) upper_left lower_right) 255 = none →
      pixelByte (w, h) upper_left lower_right col row = 0) ∧
    (∀ i, escape_time (pixel_to_point (w, h) (col, row) upper_left lower_right) 255 = some i →
      pixelByte (w, h) upper_left lower_right col row = 255 - i) ∧
    (render (w, h) upper_left lower_right).length = w * h := by
  refine ⟨render_get w h row col _ _ hrow hcol, ?_, ?_, render_length w h _ _⟩
  · intro hnone
    unfold pixelByte
    rw [hnone]
  · intro i hsome
    unfold pixelByte
    rw [hsome]

/-- C3 witness. -/
theorem render_rowmajor_witness :
    (0 : ℕ) < 1 ∧ (render (1, 1) ⟨3, 0⟩ ⟨4, -1⟩)[0 * 1 + 0]? =
      some (pixelByte (1, 1) ⟨3, 0⟩ ⟨4, -1⟩ 0 0) :=
  ⟨by decide, (render_rowmajor 1 1 0 0 ⟨3, 0⟩ ⟨4, -1⟩ (by decide) (by decide)).1⟩

/-- C4: the chunked partition slices the `width * height`-byte buffer
into bands of whole rows (each chunk length is a multiple of the width);
the bands' row ranges, concatenated in order, are exactly `[0, height)`
(no gaps, no overlaps), consecutive bands are disjoint, and the chunk
lengths (pixel counts) sum to `width * height`. -/
theorem band_partition (w h T : ℕ) (hw : 0 < w) (hh : 0 < h) (hT : 0 < T) :
    (List.range (numBands w h T)).flatMap
        (fun i => (List.range (chunkLen (w * h) (rows_per_band h T * w) i / w)).map
          fun r => rows_per_band h T * i + r) = List.range h ∧
    (∀ i j, i < j →
      rows_per_band h T * i + chunkLen (w * h) (rows_per_band h T * w) i / w ≤
        rows_per_band h T * j) ∧
    (∀ i, w ∣ chunkLen (w * h) (rows_per_band h T * w) i) ∧
    ((List.range (numBands w h T)).map fun i =>
      chunkLen (w * h) (rows_per_band h T * w) i).sum = w * h := by
  have hr : 0 < rows_per_band h T := Nat.succ_pos _
  set rpb := rows_per_band h T with hrpb
  have hnb : numBands w h T = numChunks h rpb := numChunks_mul w h rpb hw hr
  have hch : ∀ i, chunkLen (w * h) (rpb * w) i / w = min rpb (h - rpb * i) :=
    fun i => chunk_height w h rpb i hw
  refine ⟨?_, ?_, ?_, ?_⟩
  · rw [hnb]
    simp only [hch]
    exact chunks_cover rpb h hr
  · intro i j hij
    have hle : chunkLen (w * h) (rpb * w) i / w ≤ rpb := by
      rw [hch i]
      omega
    have hmul : rpb * i + rpb ≤ rpb * j := by
      have e : rpb * i + rpb = rpb * (i + 1) := by ring
      rw [e]
      exact Nat.mul_le_mul_left rpb hij
    omega
  · intro i
    rw [chunkLen_eq]
    exact dvd_mul_right w _
  · rw [hnb]
    simp only [chunkLen_eq]
    rw [sum_map_mul w (fun i => min rpb (h - rpb * i)) (List.range (numChunks h rpb)),
      min_chunk_sum rpb h hr]

/-- C4 witness. -/
theorem band_partition_witness :
    (0 : ℕ) < 2 ∧ ((List.range (numBands 2 3 2)).map fun i =>
      chunkLen (2 * 3) (rows_per_band 3 2 * 2) i).sum = 2 * 3 :=
  ⟨by decide, (band_partition 2 3 2 (by decide) (by decide) (by decide)).2.2.2⟩

/-- C5: the dispatcher computes `rows_per_band` exactly as
`height / T + 1` — which differs from true ceiling division (e.g. at
height 8, T 8) — and for each chunk `i` the band's top row is
`rows_per_band * i` (the chunk's byte offset divided by the width), its
height is `chunk length / width`, its local bounds are
`(width, height_i)`, and its local viewport is obtained by exactly two
`pixel_to_point` calls against the global bounds and viewport, at pixels
`(0, top)` and `(width, top + height_i)`. -/
theorem dispatch_bands (w h T : ℕ) (upper_left lower_right : Complex) (hw : 0 < w) :
    rows_per_band h T = h / T + 1 ∧
    rows_per_band 8 8 ≠ (8 + 8 - 1) / 8 ∧
    (∀ i, rows_per_band h T * w * i / w = rows_per_band h T * i) ∧
    dispatch w h T upper_left lower_right =
      (List.range (numBands w h T)).flatMap fun i =>
        render (w, chunkLen (w * h) (rows_per_band h T * w) i / w)
          (pixel_to_point (w, h) (0, rows_per_band h T * i) upper_left lower_right)
          (pixel_to_point (w, h)
            (w, rows_per_band h T * i + chunkLen (w * h) (rows_per_band h T * w) i / w)
            upper_left lower_right) := by
  refine ⟨rfl, by decide, fun i => ?_, rfl⟩
  rw [show rows_per_band h T * w * i = w * (rows_per_band h T * i) from by ring,
    Nat.mul_div_cancel_left _ hw]

/-- C5 witness. -/
theorem dispatch_bands_witness :
    (0 : ℕ) < 2 ∧ rows_per_band 3 2 = 3 / 2 + 1 :=
  ⟨by decide, (dispatch_bands 2 3 2 ⟨0, 0⟩ ⟨1, 1⟩ (by decide)).1⟩

/-- C6: for width > 0 and height > 0 the mapper sends pixel `(0, 0)`
exactly to the upper-left corner and pixel `(width, height)` exactly to
the lower-right corner (exact equality in the rational model of `f64`);
concretely, with bounds `(100, 100)` and viewport `(-1, 1)`–`(1, -1)`,
pixel `(25, 75)` maps to `(-0.5, -0.5)` and pixel `(100, 0)` to `(1, 1)`. -/
theorem pixel_to_point_correct (w h : ℕ) (upper_left lower_right : Complex)
    (hw : 0 < w) (hh : 0 < h) :
    pixel_to_point (w, h) (0, 0) upper_left lower_right = upper_left ∧
    pixel_to_point (w, h) (w, h) upper_left lower_right = lower_right ∧
    pixel_to_point (100, 100) (25, 75) ⟨-1, 1⟩ ⟨1, -1⟩ = ⟨-0.5, -0.5⟩ ∧
    pixel_to_point (100, 100) (100, 0) ⟨-1, 1⟩ ⟨1, -1⟩ = ⟨1, 1⟩ := by
  refine ⟨pixel_to_point_origin _ _ _, pixel_to_point_corner w h _ _ hw hh, ?_, ?_⟩
  · rw [pixel_to_point_def]
    norm_num [Complex.mk.injEq]
  · rw [pixel_to_point_def]
    norm_num [Complex.mk.injEq]

/-- C6 witness. -/
theorem pixel_to_point_correct_witness :
    (0 : ℕ) < 5 ∧ pixel_to_point (5, 7) (0, 0) ⟨2, 3⟩ ⟨4, 1⟩ = ⟨2, 3⟩ :=
  ⟨by decide, (pixel_to_point_correct 5 7 ⟨2, 3⟩ ⟨4, 1⟩ (by decide) (by decide)).1⟩

/-- C7 counterexample: the partition does not always produce exactly T
bands. With width 1, height 8 (> 0) and the default T = 8,
`rows_per_band = 8 / 8 + 1 = 2` and the buffer splits into 4 chunks, so
only 4 workers are spawned, not 8. -/
theorem numBands_counterexample : 0 < (8 : ℕ) ∧ numBands 1 8 8 ≠ 8 := by decide

/-- C7 amended: one worker is launched per band, and the number of bands
is `⌈height / rows_per_band⌉`, which is at least 1 and at most T but can
be strictly fewer than T. -/
theorem numBands_le_threads (w h T : ℕ) (hw : 0 < w) (hh : 0 < h) (hT : 0 < T) :
    numBands w h T = (h + rows_per_band h T - 1) / rows_per_band h T ∧
    0 < numBands w h T ∧ numBands w h T ≤ T := by
  have hr : 0 < rows_per_band h T := Nat.succ_pos _
  have heq : numBands w h T = numChunks h (rows_per_band h T) :=
    numChunks_mul w h (rows_per_band h T) hw hr
  refine ⟨heq, ?_, ?_⟩
  · rw [heq]
    show 1 ≤ (h + rows_per_band h T - 1) / rows_per_band h T
    exact (Nat.le_div_iff_mul_le hr).mpr (by omega)
  · rw [heq]
    have hA := Nat.div_add_mod h T
    have hAlt : h % T < T := Nat.mod_lt _ hT
    have e2 : T * rows_per_band h T = T * (h / T) + T := by
      unfold rows_per_band
      rw [Nat.mul_add, Nat.mul_one]
    have hhT : h < T * rows_per_band h T := by omega
    have hlt : h + rows_per_band h T - 1 < (T + 1) * rows_per_band h T := by
      have e3 : (T + 1) * rows_per_band h T = T * rows_per_band h T + rows_per_band h T := by
        ring
      omega
    have hd : (h + rows_per_band h T - 1) / rows_per_band h T < T + 1 :=
      (Nat.div_lt_iff_lt_mul hr).mpr hlt
    show (h + rows_per_band h T - 1) / rows_per_band h T ≤ T
    omega

/-- C7 witness. -/
theorem numBands_le_threads_witness :
    (0 : ℕ) < 750 ∧ numBands 1 750 8 ≤ 8 :=
  ⟨by decide, (numBands_le_threads 1 750 8 (by decide) (by decide) (by decide)).2.2⟩

/-- C8: `parse_pair` with the `u32` parser maps `"1000x750"` (separator
`'x'`) to `(1000, 750)`; `parse_complex` maps `"-1.20,0.35"` to the point
`(-1.20, 0.35)`; and on every malformed input — separator absent, or
either side of the separator failing the element parse — `parse_pair`
(hence `parse_complex`) returns `none` rather than crashing. -/
theorem parse_correct :
    parse_pair u32_from_str "1000x750".toList 'x' = some (1000, 750) ∧
    parse_complex "-1.20,0.35".toList = some ⟨-1.20, 0.35⟩ ∧
    (∀ (α : Type) (fromStr : List Char → Option α) (s : List Char) (sep : Char),
      strFind s sep = none → parse_pair fromStr s sep = none) ∧
    (∀ (α : Type) (fromStr : List Char → Option α) (s : List Char) (sep : Char) (i : ℕ),
      strFind s sep = some i →
      fromStr (s.take i) = none ∨ fromStr (s.drop (i + 1)) = none →
      parse_pair fromStr s sep = none) := by
  refine ⟨by decide, ?_, fun α f s sep hf => parse_pair_no_sep f s sep hf,
    fun α f s sep i hf hfail => parse_pair_side_fail f s sep i hf hfail⟩
  have hp : parse_pair f64_from_str "-1.20,0.35".toList ',' =
      some ((-1.20 : ℚ), (0.35 : ℚ)) := by
    unfold parse_pair
    rw [show strFind "-1.20,0.35".toList ',' = some 5 from by decide]
    show (match f64_from_str ("-1.20,0.35".toList.take 5),
            f64_from_str ("-1.20,0.35".toList.drop (5 + 1)) with
      | some a, some b => some (a, b)
      | _, _ => none) = some ((-1.20 : ℚ), (0.35 : ℚ))
    rw [show "-1.20,0.35".toList.take 5 = "-1.20".toList from by decide,
      show "-1.20,0.35".toList.drop (5 + 1) = "0.35".toList from by decide,
      f64_from_str_neg120, f64_from_str_035]
  unfold parse_complex
  rw [hp]

/-- C8 witness. -/
theorem parse_correct_witness :
    strFind "abc".toList 'x' = none ∧ parse_pair u32_from_str "abc".toList 'x' = none := by
  have hf : strFind "abc".toList 'x' = none := by decide
  exact ⟨hf, parse_correct.2.2.1 ℕ u32_from_str "abc".toList 'x' hf⟩

/-- C9: every byte `render` writes lies in `[0, 254]`: a never-escaping
point writes 0, and an escaping point writes `255 - i` with `i ≥ 1`,
because `z₀ = 0` has `|z₀|² = 0 ≤ 4` and so escape at iteration 0 is
impossible. -/
theorem render_bytes_le (bounds : ℕ × ℕ) (upper_left lower_right : Complex) :
    ∀ b ∈ render bounds upper_left lower_right, b ≤ 254 := by
  intro b hb
  unfold render at hb
  rw [List.mem_flatMap] at hb
  obtain ⟨row, -, hb⟩ := hb
  rw [List.mem_map] at hb
  obtain ⟨col, -, rfl⟩ := hb
  unfold pixelByte
  cases heq : escape_time (pixel_to_point bounds (col, row) upper_left lower_right) 255 with
  | none => simp
  | some i =>
    have hne : i ≠ 0 := by
      rintro rfl
      exact escape_time_ne_some_zero _ _ heq
    simp
    omega

/-- C9 witness. -/
theorem render_bytes_le_witness :
    254 ∈ render (1, 1) ⟨3, 0⟩ ⟨4, -1⟩ ∧ 254 ≤ 254 := by
  have hmem : 254 ∈ render (1, 1) ⟨3, 0⟩ ⟨4, -1⟩ := by
    have h1 : pixel_to_point (1, 1) (0, 0) ⟨3, 0⟩ ⟨4, -1⟩ = ⟨3, 0⟩ :=
      pixel_to_point_origin _ _ _
    have h2 : escape_time (⟨3, 0⟩ : Complex) 255 = some 1 := escape_time_three 255 (by omega)
    have h3 : render (1, 1) ⟨3, 0⟩ ⟨4, -1⟩ = [254] := by
      rw [render_eq_flatMap, show List.range 1 = [0] from by decide]
      simp only [List.flatMap_cons, List.flatMap_nil, List.map_cons, List.map_nil,
        List.append_nil]
      unfold pixelByte
      rw [h1, h2]
    rw [h3]
    simp
  exact ⟨hmem, render_bytes_le (1, 1) ⟨3, 0⟩ ⟨4, -1⟩ 254 hmem⟩

/-- C10 counterexample: with bounds (131072, 65536) — whose exact product
131072 × 65536 = 2³³ is a legal buffer length — the pixel at
row 32768 < height, column 0 < width has `row * width + col = 2³²`, which
overflows 32-bit arithmetic, and the wrapped write index collides with
pixel (0, 0)'s index, so that buffer cell is written more than once. -/
theorem writeIndex_overflow :
    32768 < 65536 ∧ 0 < 131072 ∧
    ¬ 32768 * 131072 + 0 < 2 ^ 32 ∧
    writeIndex 131072 32768 0 = writeIndex 131072 0 0 := by decide

/-- C10 amended: whenever `width * height ≤ 2³²` (which holds for every
band the dispatcher actually creates from buffers of that size), every
index computation `row * width + col` stays below `2³²` (no 32-bit
overflow) and below `width * height` (in bounds), and the write trace is
exactly `0, 1, …, width*height - 1` — each buffer byte written exactly
once. -/
theorem render_writes_safe (w h : ℕ) (hwh : w * h ≤ 2 ^ 32) :
    writes w h = List.range (w * h) ∧
    ∀ row < h, ∀ col < w, row * w + col < 2 ^ 32 ∧ row * w + col < w * h := by
  refine ⟨writes_eq_range w h hwh, fun row hrow col hcol => ?_⟩
  have := pixel_index_lt w h row col hrow hcol
  omega

/-- C10 witness. -/
theorem render_writes_safe_witness :
    2 * 3 ≤ 2 ^ 32 ∧ writes 2 3 = List.range (2 * 3) :=
  ⟨by decide, (render_writes_safe 2 3 (by decide)).1⟩

end Mandelbrot
